import Mathlib

/-!
Shallow embedding of `src/core/cm_utils.ts` (HyperMD).

The file models the `TokenSeeker` class (`findNext`, `setPos`) and the
`expandRange` function over a static token buffer.

Modelling conventions:
* A CodeMirror `Token` is `{start, end, type}`; character positions are `Nat`.
  `type` is modelled as a `String` (CodeMirror's `null` type is not needed by
  any claim; the predicates below only inspect strings).
* A `LineHandle` is opaque in the source and only supports `lineNo()`.  Over a
  static buffer the handle for line `n` is unique, so handles are modelled as
  the line number itself, identity comparison (`===`) becomes `==` on `Nat`,
  and `getLineHandle n = n`, `handle.lineNo() = handle`.
* The buffer is a list of token lists, one per line; `getLineTokens` on a
  missing line yields `[]`.
* JavaScript field access on `undefined` (a thrown `TypeError`) is modelled by
  returning `none`: `setPos` is the only operation that can perform an
  unguarded element access (`this.lineTokens[i_token]` on its fast path), so it
  returns `Option TokenSeeker`; `none` means the call threw.
* `findNext` performs no assignment to `this.*` in the source; it is embedded
  as a state transformer returning the (unchanged) state paired with the
  optional search result, mirroring the single `return` of the source.
-/

namespace HyperMD

/-- A CodeMirror token: half-open character interval `[start, end)` on one
line, with a style string (possibly a space-separated set of tags). -/
structure Token where
  start : Nat
  «end» : Nat
  type : String
deriving DecidableEq, Repr

/-- A buffer position `{line, ch}`. -/
structure Position where
  line : Nat
  ch : Nat
deriving DecidableEq, Repr

/-- The tokenized text buffer: one token list per line. -/
structure Buffer where
  lines : List (List Token)
deriving DecidableEq, Repr

/-- `cm.getLineTokens(n)`: the token list of line `n` (empty when absent). -/
def getLineTokens (cm : Buffer) (n : Nat) : List Token :=
  cm.lines.getD n []

/-- `cm.lastLine()`: the highest line number. -/
def lastLine (cm : Buffer) : Nat :=
  cm.lines.length - 1

/-- `cm.getLineHandle(n)`: in the static model a handle is the line number. -/
def getLineHandle (_cm : Buffer) (n : Nat) : Nat :=
  n

/-- The four mutable fields of a `TokenSeeker` instance (`cm` is the buffer,
passed separately).  `line` is the stored line handle, `lineNo` its resolved
number, `lineTokens` the cached token list, `i_token` the cursor index. -/
structure TokenSeeker where
  line : Nat
  lineNo : Nat
  lineTokens : List Token
  i_token : Nat
deriving DecidableEq, Repr

/-- First index of `l` whose element satisfies `p`, or `l.length`.  This is
the shape of every `for (; i < tokens.length; i++) { if (P) break }` loop in
the source (counting from the head of the scanned suffix). -/
def seekIdx (p : Token → Bool) : List Token → Nat
  | [] => 0
  | t :: rest => if p t then 0 else seekIdx p rest + 1

/-- A `for (; i < tokens.length; i++) { if (p(tokens[i])) break }` loop: the
first index `≥ i` whose token satisfies `p`, else past the end (`i` itself
when `i` already exceeds the length, as in the source loops). -/
def scanFrom (p : Token → Bool) (tokens : List Token) (i : Nat) : Nat :=
  i + seekIdx p (tokens.drop i)

/-- `for (; i_token < tokens.length; i_token++) { if (tokens[i_token].end > ch) break }`
(the positioning loop of `setPos`). -/
def scanEnd (tokens : List Token) (i ch : Nat) : Nat :=
  scanFrom (fun t => decide (ch < t.«end»)) tokens i

/-- `for (; i_token < tokens.length; i_token++) { if (tokens[i_token].start >= since.ch) break }`
(the `since` loop of `findNext`). -/
def scanStart (tokens : List Token) (i ch : Nat) : Nat :=
  scanFrom (fun t => decide (ch ≤ t.start)) tokens i

/-- `for (iSince = 0; iSince < tokens.length; iSince++) { if (tokens[iSince].end >= pos.ch) break }`
(the locator loop of `expandRange`). -/
def scanEndGe (tokens : List Token) (ch : Nat) : Nat :=
  scanFrom (fun t => decide (ch ≤ t.«end»)) tokens 0

/-- The matching loop of `findNext`: from index `i`, the first token
satisfying `cond` together with its index, else `none`. -/
def findFrom (tokens : List Token) (i : Nat) (cond : Token → Bool) :
    Option (Nat × Token) :=
  match tokens.get? (scanFrom cond tokens i) with
  | some t => some (scanFrom cond tokens i, t)
  | none => none

/-- Result record of `findNext`: `{ lineNo, token, i_token }`. -/
structure FindResult where
  lineNo : Nat
  token : Token
  i_token : Nat
deriving DecidableEq, Repr

/-- The `varg` parameter of `findNext`: absent, a boolean (`maySpanLines`), or
a number (an explicit start index; indices are modelled as `Nat`). -/
inductive Varg where
  | undef
  | bool (b : Bool)
  | num (n : Nat)
deriving DecidableEq, Repr

/-- `var i_token = this.i_token + 1; ... else if (typeof varg === 'number') i_token = varg`. -/
def startIdx0 (s : TokenSeeker) (varg : Varg) : Nat :=
  match varg with
  | .num n => n
  | _ => s.i_token + 1

/-- `if (varg === true) maySpanLines = true`. -/
def maySpan (varg : Varg) : Bool :=
  match varg with
  | .bool true => true
  | _ => false

/-- The `if (since) { ... }` block of `findNext`: the effective start index on
the current line. -/
def effStart (s : TokenSeeker) (varg : Varg) (since : Option Position) : Nat :=
  match since with
  | none => startIdx0 s varg
  | some sc =>
    if sc.line > s.lineNo then s.lineTokens.length
    else if sc.line < s.lineNo then startIdx0 s varg
    else scanStart s.lineTokens (startIdx0 s varg) sc.ch

/-- `since ? since.line : 0` (used for the spanning start line). -/
def sinceLine (since : Option Position) : Nat :=
  match since with
  | some sc => sc.line
  | none => 0

/-- Inside the `eachLine` callback: `i_token = 0`, then possibly the
`since`-scan on the one line equal to `since.line`. -/
def lineStart (since : Option Position) (ln : Nat) (tokens : List Token) : Nat :=
  match since with
  | some sc => if ln == sc.line then scanStart tokens 0 sc.ch else 0
  | none => 0

/-- `cm.eachLine(startLine, cm.lastLine() + 1, cb)` with the early-exit
callback of `findNext`: visit the listed line numbers in order, stop at the
first line yielding a match. -/
def findSpanGo (cm : Buffer) (cond : Token → Bool) (since : Option Position) :
    List Nat → Option FindResult
  | [] => none
  | ln :: rest =>
    let tokens := getLineTokens cm ln
    match findFrom tokens (lineStart since ln tokens) cond with
    | some (i, t) => some ⟨ln, t, i⟩
    | none => findSpanGo cm cond since rest

/-- `TokenSeeker.findNext(condition, varg?, since?)`.  The `condition`
parameter (a RegExp over `token.type` or a predicate over the token) is
modelled as `Token → Bool`.  The source assigns to no field of `this`; the
returned state is the input state, paired with the search result
(`null` becomes `none`). -/
def findNext (cm : Buffer) (s : TokenSeeker) (cond : Token → Bool)
    (varg : Varg) (since : Option Position) :
    TokenSeeker × Option FindResult :=
  let i0 := effStart s varg since
  let res : Option FindResult :=
    match findFrom s.lineTokens i0 cond with
    | some (i, t) => some ⟨s.lineNo, t, i⟩
    | none =>
      if maySpan varg then
        let startLine := max (sinceLine since) (s.lineNo + 1)
        findSpanGo cm cond since
          (List.range' startLine (lastLine cm + 1 - startLine))
      else none
  (s, res)

/-- `TokenSeeker.setPos(line, ch, precise?)` after overload normalisation
(`line` already resolved to a handle, i.e. a line number; an undefined
`precise` is `false`).  The fast path reads `this.lineTokens[i_token]`
unguarded; when that access is out of bounds the JavaScript call throws, which
is modelled as `none`. -/
def setPos (cm : Buffer) (s : TokenSeeker) (line : Nat) (ch : Nat)
    (precise : Bool) : Option TokenSeeker :=
  if precise || !(line == s.line) then
    some { line := line, lineNo := line,
           lineTokens := getLineTokens cm line,
           i_token := scanEnd (getLineTokens cm line) 0 ch }
  else
    match s.lineTokens.get? s.i_token with
    | none => none
    | some token =>
      some { s with
             i_token := scanEnd s.lineTokens
               (if ch < token.start then 0 else s.i_token) ch }

/-- The single-argument overload `setPos(ch)`: the current line is reused and
`precise` is undefined (falsy). -/
def setPosCh (cm : Buffer) (s : TokenSeeker) (ch : Nat) : Option TokenSeeker :=
  setPos cm s s.line ch false

/-- A sequence of `setPos(line, ch, precise)` calls on one line, stopping at
the first thrown call. -/
def runSetPos (cm : Buffer) (line : Nat) (precise : Bool) :
    TokenSeeker → List Nat → Option TokenSeeker
  | s, [] => some s
  | s, ch :: rest =>
    match setPos cm s line ch precise with
    | none => none
    | some s' => runSetPos cm line precise s' rest

/-- JavaScript `\s` on the characters appearing in style strings (ASCII
whitespace; the exotic Unicode space classes are not needed by any claim). -/
def isWS (c : Char) : Bool :=
  c == ' ' || c == '\t' || c == '\n' || c == '\r'

/-- `new RegExp("(?:^|\\s)" + style + "(?:\\s|$)").test(ty)` for a `style`
without regex metacharacters: `style` occurs in `ty` preceded by the start or
a whitespace character and followed by the end or a whitespace character. -/
def tagMatch (style ty : String) : Bool :=
  let s := style.data
  let t := ty.data
  (List.range (t.length + 1)).any fun i =>
    ((t.drop i).take s.length == s)
    && (i == 0 || isWS (t.getD (i - 1) ' '))
    && (i + s.length == t.length || isWS (t.getD (i + s.length) ' '))

/-- The rightward loop of `expandRange`:
`for (i = iSince; i < tokens.length; i++) { if (match) to.ch = token.end else break }`
over the suffix starting at the current index, with `acc` the current
`to.ch`. -/
def extendRightAux (matchF : Token → Bool) : List Token → Nat → Nat
  | [], acc => acc
  | t :: rest, acc => if matchF t then extendRightAux matchF rest t.«end» else acc

/-- The rightward loop of `expandRange` from index `i` with initial
`to.ch = acc`. -/
def extendRight (tokens : List Token) (i acc : Nat) (matchF : Token → Bool) : Nat :=
  extendRightAux matchF (tokens.drop i) acc

/-- The leftward loop of `expandRange`:
`for (i = iSince; i >= 0; i--) { if (!match) { from.ch = token.end; break } }`;
`from.ch` stays `0` when every token down to index 0 matches.  The `none`
branch of the lookup is unreachable at the call site (`i < tokens.length`). -/
def extendLeft (tokens : List Token) (matchF : Token → Bool) : Nat → Nat
  | 0 =>
    match tokens.get? 0 with
    | none => 0
    | some t => if matchF t then 0 else t.«end»
  | i + 1 =>
    match tokens.get? (i + 1) with
    | none => 0
    | some t => if matchF t then extendLeft tokens matchF i else t.«end»

/-- `expandRange(cm, pos, style)`: the maximal same-line range around `pos`
whose tokens carry `style` as a whitespace-separated tag;
`null` (no token with `end ≥ pos.ch`) becomes `none`. -/
def expandRange (cm : Buffer) (pos : Position) (style : String) :
    Option (Position × Position) :=
  let line := pos.line
  let tokens := getLineTokens cm line
  let iSince := scanEndGe tokens pos.ch
  if iSince == tokens.length then none
  else
    let toCh := extendRight tokens iSince pos.ch (fun t => tagMatch style t.type)
    let fromCh := extendLeft tokens (fun t => tagMatch style t.type) iSince
    some (⟨line, fromCh⟩, ⟨line, toCh⟩)

/-- Tokenizer well-formedness from the spec's data model, relative to a left
edge `c`: each token starts where the previous one ended (the first at `c`)
and is non-empty. -/
def contigChain : Nat → List Token → Bool
  | _, [] => true
  | c, t :: rest =>
    t.start == c && decide (c < t.«end») && contigChain t.«end» rest

/-- The right edge covered by a token list (`0` when empty): the `end` of the
last token. -/
def lastEnd : List Token → Nat
  | [] => 0
  | [t] => t.«end»
  | _ :: t :: rest => lastEnd (t :: rest)

/-! ### Characterisation of the linear scans -/

theorem seekIdx_le (p : Token → Bool) (l : List Token) :
    seekIdx p l ≤ l.length := by
  induction l with
  | nil => simp [seekIdx]
  | cons t rest ih =>
    by_cases hp : p t
    · simp [seekIdx, hp]
    · simp only [seekIdx, hp, if_neg, List.length_cons, Bool.false_eq_true,
        if_false]
      omega

theorem seekIdx_get? (p : Token → Bool) (l : List Token) (t : Token)
    (h : l.get? (seekIdx p l) = some t) : p t = true := by
  induction l with
  | nil => simp at h
  | cons t0 rest ih =>
    by_cases hp : p t0
    · simp [seekIdx, hp] at h
      exact h ▸ hp
    · simp only [seekIdx, hp, Bool.false_eq_true, if_false,
        List.get?_cons_succ] at h
      exact ih h

theorem seekIdx_before (p : Token → Bool) (l : List Token) (j : Nat) (t : Token)
    (hj : j < seekIdx p l) (h : l.get? j = some t) : p t = false := by
  induction l generalizing j with
  | nil => simp at h
  | cons t0 rest ih =>
    by_cases hp : p t0
    · simp [seekIdx, hp] at hj
    · simp only [seekIdx, hp, Bool.false_eq_true, if_false] at hj
      match j with
      | 0 =>
        simp only [List.get?_cons_zero, Option.some.injEq] at h
        simp [← h, hp]
      | j' + 1 =>
        simp only [List.get?_cons_succ] at h
        exact ih j' (by omega) h

theorem seekIdx_min (p : Token → Bool) (l : List Token) (j : Nat) (t : Token)
    (h : l.get? j = some t) (hp : p t = true) : seekIdx p l ≤ j := by
  by_contra hlt
  have := seekIdx_before p l j t (by omega) h
  rw [hp] at this
  exact Bool.true_eq_false.mp this

theorem seekIdx_eq_length_iff (p : Token → Bool) (l : List Token) :
    seekIdx p l = l.length ↔ ∀ t ∈ l, p t = false := by
  constructor
  · intro h t ht
    obtain ⟨j, hget⟩ := List.mem_iff_get?.mp ht
    by_contra hpt
    have hmin := seekIdx_min p l j t hget (by revert hpt; cases p t <;> simp)
    have hlt : j < l.length := (List.get?_eq_some.mp hget).1
    omega
  · intro h
    have hle := seekIdx_le p l
    rcases Nat.lt_or_ge (seekIdx p l) l.length with hlt | hge
    · have hget : l.get? (seekIdx p l) = some (l.get ⟨seekIdx p l, hlt⟩) :=
        List.get?_eq_get hlt
      have := seekIdx_get? p l _ hget
      have hmem : l.get ⟨seekIdx p l, hlt⟩ ∈ l := List.get_mem l _ _
      rw [h _ hmem] at this
      exact absurd this (by simp)
    · omega

theorem scanFrom_ge (p : Token → Bool) (tokens : List Token) (i : Nat) :
    i ≤ scanFrom p tokens i :=
  Nat.le_add_right i _

theorem scanFrom_le (p : Token → Bool) (tokens : List Token) (i : Nat)
    (h : i ≤ tokens.length) : scanFrom p tokens i ≤ tokens.length := by
  have := seekIdx_le p (tokens.drop i)
  simp only [List.length_drop] at this
  unfold scanFrom
  omega

theorem scanFrom_found (p : Token → Bool) (tokens : List Token) (i : Nat)
    (t : Token) (h : tokens.get? (scanFrom p tokens i) = some t) :
    p t = true := by
  apply seekIdx_get? p (tokens.drop i)
  rw [List.get?_drop]
  exact h

theorem scanFrom_before (p : Token → Bool) (tokens : List Token) (i j : Nat)
    (t : Token) (hij : i ≤ j) (hj : j < scanFrom p tokens i)
    (h : tokens.get? j = some t) : p t = false := by
  apply seekIdx_before p (tokens.drop i) (j - i) t
  · unfold scanFrom at hj; omega
  · rw [List.get?_drop]
    rwa [Nat.add_sub_cancel' hij]

theorem scanFrom_min (p : Token → Bool) (tokens : List Token) (i j : Nat)
    (t : Token) (hij : i ≤ j) (h : tokens.get? j = some t)
    (hp : p t = true) : scanFrom p tokens i ≤ j := by
  have := seekIdx_min p (tokens.drop i) (j - i) t
    (by rw [List.get?_drop]; rwa [Nat.add_sub_cancel' hij]) hp
  unfold scanFrom
  omega

theorem scanFrom_self (p : Token → Bool) (tokens : List Token) (i : Nat)
    (t : Token) (h : tokens.get? i = some t) (hp : p t = true) :
    scanFrom p tokens i = i :=
  Nat.le_antisymm (scanFrom_min p tokens i i t (Nat.le_refl i) h hp)
    (scanFrom_ge p tokens i)

/-! ### Consequences of the tokenizer contract (contiguous token lists) -/

theorem contigChain_head (c : Nat) (t : Token) (rest : List Token)
    (h : contigChain c (t :: rest) = true) :
    t.start = c ∧ c < t.«end» ∧ contigChain t.«end» rest = true := by
  simp only [contigChain, Bool.and_eq_true, beq_iff_eq, decide_eq_true_eq] at h
  exact ⟨h.1.1, h.1.2, h.2⟩

theorem contig_bounds (c : Nat) (toks : List Token) (j : Nat) (t : Token)
    (hc : contigChain c toks = true) (h : toks.get? j = some t) :
    c ≤ t.start ∧ t.start < t.«end» := by
  induction toks generalizing c j with
  | nil => simp at h
  | cons t0 rest ih =>
    obtain ⟨h0, hlt, hrest⟩ := contigChain_head c t0 rest hc
    match j with
    | 0 =>
      simp only [List.get?_cons_zero, Option.some.injEq] at h
      subst h
      omega
    | j' + 1 =>
      simp only [List.get?_cons_succ] at h
      have := ih t0.«end» j' hrest h
      omega

theorem contig_get0 (c : Nat) (toks : List Token) (t : Token)
    (hc : contigChain c toks = true) (h : toks.get? 0 = some t) :
    t.start = c := by
  match toks with
  | [] => simp at h
  | t0 :: rest =>
    simp only [List.get?_cons_zero, Option.some.injEq] at h
    subst h
    exact (contigChain_head c t0 rest hc).1

theorem contig_adj (c : Nat) (toks : List Token) (j : Nat) (t t' : Token)
    (hc : contigChain c toks = true) (h : toks.get? j = some t)
    (h' : toks.get? (j + 1) = some t') : t'.start = t.«end» := by
  induction toks generalizing c j with
  | nil => simp at h
  | cons t0 rest ih =>
    obtain ⟨h0, hlt, hrest⟩ := contigChain_head c t0 rest hc
    match j with
    | 0 =>
      simp only [List.get?_cons_zero, Option.some.injEq] at h
      simp only [List.get?_cons_succ] at h'
      subst h
      exact contig_get0 t0.«end» rest t' hrest h'
    | j' + 1 =>
      simp only [List.get?_cons_succ] at h h'
      exact ih t0.«end» j' hrest h h'

theorem contig_mono (c : Nat) (toks : List Token) (i j : Nat) (t t' : Token)
    (hc : contigChain c toks = true) (hij : i < j)
    (h : toks.get? i = some t) (h' : toks.get? j = some t') :
    t.«end» ≤ t'.start := by
  induction toks generalizing c i j with
  | nil => simp at h
  | cons t0 rest ih =>
    obtain ⟨h0, hlt, hrest⟩ := contigChain_head c t0 rest hc
    match i, j with
    | 0, j' + 1 =>
      simp only [List.get?_cons_zero, Option.some.injEq] at h
      simp only [List.get?_cons_succ] at h'
      subst h
      exact (contig_bounds t0.«end» rest j' t' hrest h').1
    | i' + 1, j' + 1 =>
      simp only [List.get?_cons_succ] at h h'
      exact ih t0.«end» i' j' hrest (by omega) h h'

theorem contig_end_le_lastEnd (c : Nat) (toks : List Token) (j : Nat)
    (t : Token) (hc : contigChain c toks = true) (h : toks.get? j = some t) :
    t.«end» ≤ lastEnd toks := by
  induction toks generalizing c j t with
  | nil => simp at h
  | cons t0 rest ih =>
    obtain ⟨h0, hlt, hrest⟩ := contigChain_head c t0 rest hc
    match rest, j with
    | [], 0 =>
      simp only [List.get?_cons_zero, Option.some.injEq] at h
      subst h
      simp [lastEnd]
    | [], j' + 1 => simp at h
    | t1 :: rest', 0 =>
      simp only [List.get?_cons_zero, Option.some.injEq] at h
      subst h
      have h1 : (t1 :: rest').get? 0 = some t1 := rfl
      have hst : t1.start = t0.«end» := contig_get0 _ _ _ hrest h1
      have := ih t0.«end» 0 t1 hrest h1
      have hb := contig_bounds t0.«end» (t1 :: rest') 0 t1 hrest h1
      show t0.«end» ≤ lastEnd (t1 :: rest')
      omega
    | t1 :: rest', j' + 1 =>
      simp only [List.get?_cons_succ] at h
      exact ih t0.«end» j' t hrest h

/-- If no token before index `i` satisfies `p`, resuming the scan at `i` finds
the same index as scanning from `0`. -/
theorem scanFrom_resume (p : Token → Bool) (toks : List Token) (i : Nat)
    (hi : i < toks.length)
    (hprev : ∀ j t', j < i → toks.get? j = some t' → p t' = false) :
    scanFrom p toks i = scanFrom p toks 0 := by
  have hir0 : i ≤ scanFrom p toks 0 := by
    by_contra hcon
    push_neg at hcon
    have hr0lt : scanFrom p toks 0 < toks.length := by omega
    have hget0 : toks.get? (scanFrom p toks 0) =
        some (toks.get ⟨scanFrom p toks 0, hr0lt⟩) := List.get?_eq_get hr0lt
    have hfound := scanFrom_found p toks 0 _ hget0
    have := hprev _ _ hcon hget0
    rw [hfound] at this
    exact Bool.true_eq_false.mp this
  rcases Nat.lt_or_ge (scanFrom p toks 0) toks.length with hlt | hge
  · have hget0 : toks.get? (scanFrom p toks 0) =
        some (toks.get ⟨scanFrom p toks 0, hlt⟩) := List.get?_eq_get hlt
    have hfound := scanFrom_found p toks 0 _ hget0
    have hle1 : scanFrom p toks i ≤ scanFrom p toks 0 :=
      scanFrom_min p toks i _ _ hir0 hget0 hfound
    have hle2 : scanFrom p toks 0 ≤ scanFrom p toks i := by
      by_contra hcon
      push_neg at hcon
      have hrilt : scanFrom p toks i < toks.length := by omega
      have hgeti : toks.get? (scanFrom p toks i) =
          some (toks.get ⟨scanFrom p toks i, hrilt⟩) := List.get?_eq_get hrilt
      have hfi := scanFrom_found p toks i _ hgeti
      have hbefore := scanFrom_before p toks 0 (scanFrom p toks i) _
        (Nat.zero_le _) hcon hgeti
      rw [hfi] at hbefore
      exact Bool.true_eq_false.mp hbefore
    omega
  · have h1 : scanFrom p toks i ≤ toks.length := scanFrom_le p toks i (by omega)
    have h2 : scanFrom p toks 0 ≤ toks.length :=
      scanFrom_le p toks 0 (Nat.zero_le _)
    rcases Nat.lt_or_ge (scanFrom p toks i) toks.length with hri | hri2
    · have hgeti : toks.get? (scanFrom p toks i) =
          some (toks.get ⟨scanFrom p toks i, hri⟩) := List.get?_eq_get hri
      have hfi := scanFrom_found p toks i _ hgeti
      have := scanFrom_min p toks 0 _ _ (Nat.zero_le _) hgeti hfi
      omega
    · omega

/-- Under the tokenizer contract, resuming `setPos`'s positioning loop from an
index whose token starts at or before `ch` gives the same index as a full
rescan from 0. -/
theorem scanEnd_resume (toks : List Token) (ch i : Nat) (t : Token)
    (hc : contigChain 0 toks = true) (hi : toks.get? i = some t)
    (hstart : t.start ≤ ch) : scanEnd toks i ch = scanEnd toks 0 ch := by
  apply scanFrom_resume _ toks i (List.get?_eq_some.mp hi).1
  intro j t' hj hget
  have hmono := contig_mono 0 toks j i t' t hc hj hget hi
  simp only [decide_eq_false_iff_not, Nat.not_lt]
  omega

theorem lastEnd_get? (toks : List Token) (hne : toks ≠ []) :
    ∃ t, toks.get? (toks.length - 1) = some t ∧ t.«end» = lastEnd toks := by
  induction toks with
  | nil => exact absurd rfl hne
  | cons t0 rest ih =>
    match rest with
    | [] => exact ⟨t0, rfl, rfl⟩
    | t1 :: rest' =>
      obtain ⟨t, hget, hend⟩ := ih (by simp)
      refine ⟨t, ?_, hend⟩
      simpa [List.length_cons] using hget

/-- Under the tokenizer contract, when `ch` lies left of the covered right
edge, the positioning scan from 0 lands on the token containing `ch`. -/
theorem scanEnd_zero_contains (toks : List Token) (ch : Nat)
    (hc : contigChain 0 toks = true) (hch : ch < lastEnd toks) :
    ∃ t, toks.get? (scanEnd toks 0 ch) = some t ∧
      t.start ≤ ch ∧ ch < t.«end» := by
  have hne : toks ≠ [] := by
    intro h
    rw [h] at hch
    simp [lastEnd] at hch
  obtain ⟨tl, hgetl, hendl⟩ := lastEnd_get? toks hne
  have hlenpos : 0 < toks.length := List.length_pos.mpr hne
  have hplast : (fun t => decide (ch < t.«end»)) tl = true := by
    simp only [decide_eq_true_eq]
    omega
  have hrle : scanEnd toks 0 ch ≤ toks.length - 1 :=
    scanFrom_min _ toks 0 _ _ (Nat.zero_le _) hgetl hplast
  have hrlt : scanEnd toks 0 ch < toks.length := by omega
  obtain ⟨t, hget⟩ : ∃ u, toks.get? (scanEnd toks 0 ch) = some u :=
    ⟨_, List.get?_eq_get hrlt⟩
  refine ⟨t, hget, ?_, ?_⟩
  · cases hr0 : scanEnd toks 0 ch with
    | zero =>
      rw [hr0] at hget
      have := contig_get0 0 toks t hc hget
      omega
    | succ r' =>
      rw [hr0] at hget hrlt
      have hr0' : scanFrom (fun t => decide (ch < t.«end»)) toks 0 = r' + 1 :=
        hr0
      have hr'lt : r' < toks.length := by omega
      obtain ⟨t'', hget'⟩ : ∃ u, toks.get? r' = some u :=
        ⟨_, List.get?_eq_get hr'lt⟩
      have hbefore := scanFrom_before (fun t => decide (ch < t.«end»))
        toks 0 r' t'' (Nat.zero_le _) (by omega) hget'
      simp only [decide_eq_false_iff_not, Nat.not_lt] at hbefore
      have hadj := contig_adj 0 toks r' t'' t hc hget' hget
      omega
  · have := scanFrom_found _ toks 0 t hget
    simpa using this

/-- On the same-line imprecise path with a cursor that indexes an existing
token, `setPos` succeeds and is equivalent to a full rescan from index 0
(under the tokenizer contract). -/
theorem setPos_fast (cm : Buffer) (s : TokenSeeker) (ch : Nat) (t : Token)
    (hc : contigChain 0 s.lineTokens = true)
    (hi : s.lineTokens.get? s.i_token = some t) :
    setPos cm s s.line ch false =
      some { s with i_token := scanEnd s.lineTokens 0 ch } := by
  unfold setPos
  simp only [beq_self_eq_true, Bool.not_true, Bool.or_false, Bool.false_or,
    Bool.false_eq_true, if_false, hi]
  by_cases hch : ch < t.start
  · simp [hch]
  · simp only [if_neg hch]
    rw [scanEnd_resume s.lineTokens ch s.i_token t hc hi (Nat.le_of_not_lt hch)]

/-! ### The claims -/

/-- C3: `findNext` never mutates the Seeker's `line`, `lineNo`, `lineTokens`
or `i_token` fields: the state component of the embedded call is the input
state, for every condition, `varg` and `since`, matched or not. -/
theorem findNext_preserves_state (cm : Buffer) (s : TokenSeeker)
    (cond : Token → Bool) (varg : Varg) (since : Option Position) :
    (findNext cm s cond varg since).1 = s :=
  rfl

/-- C5: with no span flag, no explicit start index and no `since` position,
`findNext` scans strictly after the current token, from `i_token + 1`; on the
tokens `[{0,3,"a"},{3,6,"b"},{6,9,"a"}]` with cursor `i_token = 0`, searching
`/a/` returns the token `{6,9,"a"}` at index 2, not the current token. -/
theorem findNext_starts_after_current :
    (∀ (cm : Buffer) (s : TokenSeeker) (cond : Token → Bool),
      (findNext cm s cond Varg.undef none).2 =
        match findFrom s.lineTokens (s.i_token + 1) cond with
        | some (i, t) => some ⟨s.lineNo, t, i⟩
        | none => none) ∧
    (findNext ⟨[[⟨0,3,"a"⟩, ⟨3,6,"b"⟩, ⟨6,9,"a"⟩]]⟩
        ⟨0, 0, [⟨0,3,"a"⟩, ⟨3,6,"b"⟩, ⟨6,9,"a"⟩], 0⟩
        (fun t => t.type.data.contains 'a') Varg.undef none).2 =
      some ⟨0, ⟨6,9,"a"⟩, 2⟩ := by
  constructor
  · intro cm s cond
    cases hf : findFrom s.lineTokens (s.i_token + 1) cond with
    | none => simp [findNext, effStart, startIdx0, maySpan, hf]
    | some v =>
      obtain ⟨i, t⟩ := v
      simp [findNext, effStart, startIdx0, maySpan, hf]
  · decide

/-- C7: `expandRange` treats a token's type as a whitespace-separated tag set
requiring exact membership: on `[{0,4,"em"},{4,10,"em strong"},{10,14,"plain"}]`
with `pos.ch = 6` and style `"em"`, the result is `{from: ch 0, to: ch 10}`;
moreover the tag test rejects a mere substring occurrence such as `"emx"`. -/
theorem expandRange_tag_example :
    expandRange ⟨[[⟨0,4,"em"⟩, ⟨4,10,"em strong"⟩, ⟨10,14,"plain"⟩]]⟩
        ⟨0, 6⟩ "em" = some (⟨0, 0⟩, ⟨0, 10⟩) ∧
    tagMatch "em" "emx" = false ∧ tagMatch "em" "xem" = false ∧
    tagMatch "em" "strong em" = true := by
  decide

/-- C10: when the token list fetched for `pos.line` is empty, `expandRange`
returns `none` for every position on that line (including `pos.ch = 0`) and
every style. -/
theorem expandRange_empty_line_none (cm : Buffer) (pos : Position)
    (style : String) (h : getLineTokens cm pos.line = []) :
    expandRange cm pos style = none := by
  simp [expandRange, h, scanEndGe, scanFrom, seekIdx]

/-- C10 witness: the concrete buffer with one empty line, at `ch = 0`. -/
theorem expandRange_empty_line_none_witness :
    expandRange ⟨[[]]⟩ ⟨0, 0⟩ "em" = none :=
  expandRange_empty_line_none ⟨[[]]⟩ ⟨0, 0⟩ "em" rfl

/-- C2 (amended): under the tokenizer contract, when the current cursor
indexes an existing token and `ch` lies inside the covered range, the
single-argument `setPos(ch)` succeeds and leaves `i_token` on the token whose
half-open interval contains `ch`. -/
theorem setPosCh_lands_on_token (cm : Buffer) (s : TokenSeeker) (ch : Nat)
    (t : Token) (hc : contigChain 0 s.lineTokens = true)
    (hi : s.lineTokens.get? s.i_token = some t)
    (hch : ch < lastEnd s.lineTokens) :
    ∃ s' tk, setPosCh cm s ch = some s' ∧
      s'.lineTokens.get? s'.i_token = some tk ∧
      tk.start ≤ ch ∧ ch < tk.«end» := by
  obtain ⟨tk, hgetk, hstart, hend⟩ := scanEnd_zero_contains s.lineTokens ch hc hch
  exact ⟨{ s with i_token := scanEnd s.lineTokens 0 ch }, tk,
    setPos_fast cm s ch t hc hi, hgetk, hstart, hend⟩

/-- C2 witness: a contiguous line `[{0,3},{3,6},{6,9}]`, cursor at token 0,
`setPos(4)` lands on the token `[3,6)`. -/
theorem setPosCh_lands_on_token_witness :
    ∃ s' tk,
      setPosCh ⟨[[⟨0,3,"a"⟩, ⟨3,6,"b"⟩, ⟨6,9,"a"⟩]]⟩
        ⟨0, 0, [⟨0,3,"a"⟩, ⟨3,6,"b"⟩, ⟨6,9,"a"⟩], 0⟩ 4 = some s' ∧
      s'.lineTokens.get? s'.i_token = some tk ∧
      tk.start ≤ 4 ∧ 4 < tk.«end» :=
  setPosCh_lands_on_token _ _ 4 ⟨0, 3, "a"⟩ (by decide) (by decide) (by decide)

/-- C2 counterexample: on a contiguous line covering `[0,3)` with the
reachable past-end cursor `i_token = 1 = lineTokens.length`, `setPos(0)`
(with `0` in range) performs the out-of-bounds fast-path access and throws
instead of producing a cursor state. -/
theorem setPosCh_lands_on_token_cex :
    contigChain 0 [⟨0, 3, "x"⟩] = true ∧ (0 : Nat) < lastEnd [⟨0, 3, "x"⟩] ∧
    setPosCh ⟨[[⟨0, 3, "x"⟩]]⟩ ⟨0, 0, [⟨0, 3, "x"⟩], 1⟩ 0 = none := by
  decide

/-- C9 (amended): under the tokenizer contract on the cached token list,
repeating a completed `setPos` call with identical arguments reproduces the
same cursor state whenever the repeat itself completes (does not hit the
fast path's out-of-bounds token access). -/
theorem setPos_idempotent (cm : Buffer) (s s' s'' : TokenSeeker)
    (line ch : Nat) (precise : Bool)
    (hc : contigChain 0 s.lineTokens = true)
    (h1 : setPos cm s line ch precise = some s')
    (h2 : setPos cm s' line ch precise = some s'') :
    s'' = s' := by
  by_cases hb : (precise || !(line == s.line)) = true
  · -- first call takes the refetch path
    unfold setPos at h1
    rw [if_pos hb] at h1
    have hs' := Option.some.inj h1
    subst hs'
    unfold setPos at h2
    by_cases hp : precise = true
    · rw [if_pos (by simp [hp])] at h2
      exact (Option.some.inj h2).symm
    · have hp' : precise = false := by revert hp; cases precise <;> simp
      subst hp'
      rw [if_neg (by simp)] at h2
      dsimp only at h2
      cases hg : (getLineTokens cm line).get?
          (scanEnd (getLineTokens cm line) 0 ch) with
      | none => rw [hg] at h2; exact absurd h2 (by simp)
      | some t2 =>
        rw [hg] at h2
        dsimp only at h2
        have hX : scanEnd (getLineTokens cm line)
            (if ch < t2.start then 0
             else scanEnd (getLineTokens cm line) 0 ch) ch =
            scanEnd (getLineTokens cm line) 0 ch := by
          by_cases hch : ch < t2.start
          · simp [hch]
          · simp only [if_neg hch]
            exact scanFrom_self _ (getLineTokens cm line) _ t2 hg
              (scanFrom_found _ (getLineTokens cm line) 0 t2 hg)
        rw [hX] at h2
        exact (Option.some.inj h2).symm
  · -- first call takes the same-line fast path
    have hb' : (precise || !(line == s.line)) = false := by
      revert hb; cases (precise || !(line == s.line)) <;> simp
    have hpf : precise = false := by
      revert hb'; cases precise <;> simp
    subst hpf
    simp only [Bool.false_or, Bool.not_eq_false'] at hb'
    have hlineeq : line = s.line := beq_iff_eq.mp hb'
    subst hlineeq
    unfold setPos at h1
    rw [if_neg (by simp)] at h1
    cases hg1 : s.lineTokens.get? s.i_token with
    | none => rw [hg1] at h1; exact absurd h1 (by simp)
    | some t =>
      rw [hg1] at h1
      dsimp only at h1
      have hs' := Option.some.inj h1
      subst hs'
      unfold setPos at h2
      rw [if_neg (by simp)] at h2
      dsimp only at h2
      cases hg2 : s.lineTokens.get?
          (scanEnd s.lineTokens
            (if ch < t.start then 0 else s.i_token) ch) with
      | none => rw [hg2] at h2; exact absurd h2 (by simp)
      | some t2 =>
        rw [hg2] at h2
        dsimp only at h2
        have hX : scanEnd s.lineTokens
            (if ch < t2.start then 0
             else scanEnd s.lineTokens
               (if ch < t.start then 0 else s.i_token) ch) ch =
            scanEnd s.lineTokens
              (if ch < t.start then 0 else s.i_token) ch := by
          by_cases hch2 : ch < t2.start
          · simp only [if_pos hch2]
            by_cases hch1 : ch < t.start
            · simp [hch1]
            · simp only [if_neg hch1]
              exact (scanEnd_resume s.lineTokens ch s.i_token t hc hg1
                (Nat.le_of_not_lt hch1)).symm
          · simp only [if_neg hch2]
            exact scanFrom_self _ s.lineTokens _ t2 hg2
              (scanFrom_found _ s.lineTokens _ t2 hg2)
        rw [hX] at h2
        exact (Option.some.inj h2).symm

/-- C9 witness: a contiguous two-token line, `setPos(0, 4, false)` twice from
cursor 0; both calls complete and the second reproduces the first's state. -/
theorem setPos_idempotent_witness :
    (⟨0, 0, [⟨0,3,"a"⟩, ⟨3,6,"b"⟩], 1⟩ : TokenSeeker) =
      ⟨0, 0, [⟨0,3,"a"⟩, ⟨3,6,"b"⟩], 1⟩ :=
  setPos_idempotent ⟨[[⟨0,3,"a"⟩, ⟨3,6,"b"⟩]]⟩
    ⟨0, 0, [⟨0,3,"a"⟩, ⟨3,6,"b"⟩], 0⟩
    ⟨0, 0, [⟨0,3,"a"⟩, ⟨3,6,"b"⟩], 1⟩
    ⟨0, 0, [⟨0,3,"a"⟩, ⟨3,6,"b"⟩], 1⟩
    0 4 false (by decide) (by decide) (by decide)

/-- C9 counterexample: `setPos(0, 3, false)` on the line covering `[0,3)`
completes and leaves `i_token = 1` (past the single token); repeating the
identical call hits `lineTokens[1]` on the fast path and throws instead of
leaving the state unchanged. -/
theorem setPos_idempotent_cex :
    setPos ⟨[[⟨0,3,"x"⟩]]⟩ ⟨0, 0, [⟨0,3,"x"⟩], 0⟩ 0 3 false =
      some ⟨0, 0, [⟨0,3,"x"⟩], 1⟩ ∧
    setPos ⟨[[⟨0,3,"x"⟩]]⟩ ⟨0, 0, [⟨0,3,"x"⟩], 1⟩ 0 3 false = none := by
  decide

/-- One `setPos` call on the tracked line: with a consistent cache, a valid
cursor and the tokenizer contract, the imprecise and the precise call both
succeed with the same refreshed state. -/
theorem setPos_step_both (cm : Buffer) (s : TokenSeeker) (l ch : Nat)
    (t : Token) (hline : s.line = l) (hlineNo : s.lineNo = l)
    (hcache : s.lineTokens = getLineTokens cm l)
    (hc : contigChain 0 s.lineTokens = true)
    (hi : s.lineTokens.get? s.i_token = some t) :
    setPos cm s l ch false =
      some ⟨l, l, getLineTokens cm l, scanEnd (getLineTokens cm l) 0 ch⟩ ∧
    setPos cm s l ch true =
      some ⟨l, l, getLineTokens cm l, scanEnd (getLineTokens cm l) 0 ch⟩ := by
  constructor
  · have hfast := setPos_fast cm s ch t hc hi
    rw [hline] at hfast
    rw [hfast, hcache, hlineNo]
  · unfold setPos
    rw [if_pos (by simp)]

/-- C1 (amended): from a state consistently tracking line `l` whose cursor
indexes an existing token, and for `ch` values inside the covered range, a
non-decreasing sequence of imprecise `setPos` calls produces after every call
exactly the state the precise calls would produce. -/
theorem runSetPos_imprecise_eq_precise (cm : Buffer) (l : Nat)
    (s : TokenSeeker) (chs : List Nat)
    (hline : s.line = l) (hlineNo : s.lineNo = l)
    (hcache : s.lineTokens = getLineTokens cm l)
    (hvalid : s.i_token < s.lineTokens.length)
    (hc : contigChain 0 (getLineTokens cm l) = true)
    (hchs : ∀ ch ∈ chs, ch < lastEnd (getLineTokens cm l))
    (hmono : chs.Chain' (· ≤ ·)) :
    ∀ n, runSetPos cm l false s (chs.take n) =
      runSetPos cm l true s (chs.take n) := by
  induction chs generalizing s with
  | nil => intro n; rw [List.take_nil]; rfl
  | cons ch rest ih =>
    intro n
    match n with
    | 0 => rfl
    | n' + 1 =>
      obtain ⟨t, ht⟩ : ∃ t, s.lineTokens.get? s.i_token = some t :=
        ⟨_, List.get?_eq_get hvalid⟩
      obtain ⟨h1, h2⟩ := setPos_step_both cm s l ch t hline hlineNo hcache
        (hcache ▸ hc) ht
      have hch : ch < lastEnd (getLineTokens cm l) :=
        hchs ch (List.mem_cons_self ch rest)
      obtain ⟨tk, hgtk, -, -⟩ :=
        scanEnd_zero_contains (getLineTokens cm l) ch hc hch
      simp only [List.take_succ_cons, runSetPos, h1, h2]
      exact ih ⟨l, l, getLineTokens cm l, scanEnd (getLineTokens cm l) 0 ch⟩
        rfl rfl rfl (List.get?_eq_some.mp hgtk).1
        (fun ch' hm => hchs ch' (List.mem_cons_of_mem ch hm))
        hmono.tail n'

/-- C1 witness: two increasing imprecise repositions on a consistent
two-token line agree with the precise repositions after each call. -/
theorem runSetPos_imprecise_eq_precise_witness :
    runSetPos ⟨[[⟨0,3,"a"⟩, ⟨3,6,"b"⟩]]⟩ 0 false
        ⟨0, 0, [⟨0,3,"a"⟩, ⟨3,6,"b"⟩], 0⟩ (List.take 2 [1, 4]) =
      runSetPos ⟨[[⟨0,3,"a"⟩, ⟨3,6,"b"⟩]]⟩ 0 true
        ⟨0, 0, [⟨0,3,"a"⟩, ⟨3,6,"b"⟩], 0⟩ (List.take 2 [1, 4]) :=
  runSetPos_imprecise_eq_precise _ 0 _ [1, 4] rfl rfl rfl (by decide)
    (by decide) (by decide) (by simp [List.chain'_cons]) 2

/-- C1 counterexample: a state tracking the line covering `[0,3)` with the
reachable past-end cursor `i_token = 1`; on the (trivially non-decreasing)
sequence `[0]`, the imprecise call throws while the precise call produces
`i_token = 0`, so the resulting states are not identical. -/
theorem runSetPos_imprecise_eq_precise_cex :
    runSetPos ⟨[[⟨0,3,"x"⟩]]⟩ 0 false ⟨0, 0, [⟨0,3,"x"⟩], 1⟩ [0] = none ∧
    runSetPos ⟨[[⟨0,3,"x"⟩]]⟩ 0 true ⟨0, 0, [⟨0,3,"x"⟩], 1⟩ [0] =
      some ⟨0, 0, [⟨0,3,"x"⟩], 0⟩ := by
  decide

/-- C4: spanning search returns the first matching line's first match and
fetches no later line — the result is invariant under appending arbitrary
lines after line 1 (first conjunct); and the subsequent lines are scanned
starting at `max(since.line, currentLineNo + 1)`: with `since.line = 3` in
the future, matching lines 1 and 2 are skipped and line 3's match is
returned (second conjunct). -/
theorem findNext_span_first_match :
    (∀ rest : List (List Token),
      (findNext ⟨[⟨0,3,"y"⟩] :: [⟨0,2,"w"⟩, ⟨2,5,"x"⟩, ⟨5,7,"x"⟩] :: rest⟩
          ⟨0, 0, [⟨0,3,"y"⟩], 0⟩ (fun t => t.type == "x") (Varg.bool true)
          none).2 = some ⟨1, ⟨2,5,"x"⟩, 1⟩) ∧
    (findNext ⟨[[⟨0,3,"y"⟩], [⟨0,2,"x"⟩], [⟨0,2,"x"⟩], [⟨0,4,"x"⟩]]⟩
        ⟨0, 0, [⟨0,3,"y"⟩], 0⟩ (fun t => t.type == "x") (Varg.bool true)
        (some ⟨3, 0⟩)).2 = some ⟨3, ⟨0,4,"x"⟩, 0⟩ := by
  constructor
  · intro rest
    simp [findNext, effStart, startIdx0, maySpan, sinceLine, findFrom,
      scanFrom, seekIdx, getLineTokens, lastLine]
    rw [List.range'_succ]
    simp [findSpanGo, lineStart, getLineTokens, findFrom, scanFrom, seekIdx]
  · decide

/-- "A matching token exists in the scanned range": some index at or after
`i0` holds a token satisfying `cond`. -/
def matchInLine (tokens : List Token) (i0 : Nat) (cond : Token → Bool) : Prop :=
  ∃ j t, i0 ≤ j ∧ tokens.get? j = some t ∧ cond t = true

theorem findFrom_none_iff (tokens : List Token) (i : Nat)
    (cond : Token → Bool) :
    findFrom tokens i cond = none ↔ ¬ matchInLine tokens i cond := by
  have hsplit : findFrom tokens i cond = none ↔
      tokens.get? (scanFrom cond tokens i) = none := by
    cases hg : tokens.get? (scanFrom cond tokens i) with
    | none => unfold findFrom; rw [hg]; simp [hg]
    | some t => unfold findFrom; rw [hg]; simp [hg]
  rw [hsplit]
  constructor
  · intro hnone hmatch
    obtain ⟨j, t, hij, hget, hcond⟩ := hmatch
    have hmin := scanFrom_min cond tokens i j t hij hget hcond
    have hjlt : j < tokens.length := (List.get?_eq_some.mp hget).1
    have := List.get?_eq_none.mp hnone
    omega
  · intro hno
    cases hg : tokens.get? (scanFrom cond tokens i) with
    | none => rfl
    | some t =>
      exact absurd ⟨scanFrom cond tokens i, t, scanFrom_ge cond tokens i, hg,
        scanFrom_found cond tokens i t hg⟩ hno

theorem findFrom_some (tokens : List Token) (i : Nat) (cond : Token → Bool)
    (j : Nat) (t : Token) (h : findFrom tokens i cond = some (j, t)) :
    i ≤ j ∧ tokens.get? j = some t ∧ cond t = true := by
  unfold findFrom at h
  cases hg : tokens.get? (scanFrom cond tokens i) with
  | none => rw [hg] at h; exact absurd h (by simp)
  | some u =>
    rw [hg] at h
    dsimp only at h
    have hpair := Option.some.inj h
    injection hpair with hj ht
    subst hj
    subst ht
    exact ⟨scanFrom_ge cond tokens i, hg,
      scanFrom_found cond tokens i u hg⟩

theorem findSpanGo_none_iff (cm : Buffer) (cond : Token → Bool)
    (since : Option Position) (lns : List Nat) :
    findSpanGo cm cond since lns = none ↔
      ∀ ln ∈ lns,
        findFrom (getLineTokens cm ln)
          (lineStart since ln (getLineTokens cm ln)) cond = none := by
  induction lns with
  | nil => simp [findSpanGo]
  | cons ln rest ih =>
    cases hf : findFrom (getLineTokens cm ln)
        (lineStart since ln (getLineTokens cm ln)) cond with
    | some v =>
      obtain ⟨i, t⟩ := v
      simp [findSpanGo, hf]
    | none =>
      simp [findSpanGo, hf, ih]

/-- C8: both "not found" cases are a `none` result (the embedding is total,
so no exception can occur): `findNext` yields `none` exactly when no token
satisfying the condition exists at or after the effective start index of the
current line, nor (when spanning) at or after the per-line start index of any
subsequent line up to the last; `expandRange` yields `none` exactly when no
token of the line has `end ≥ pos.ch`. -/
theorem not_found_is_none (cm : Buffer) (s : TokenSeeker)
    (cond : Token → Bool) (varg : Varg) (since : Option Position)
    (pos : Position) (style : String) :
    ((findNext cm s cond varg since).2 = none ↔
      (¬ matchInLine s.lineTokens (effStart s varg since) cond ∧
        (maySpan varg = true →
          ∀ ln, max (sinceLine since) (s.lineNo + 1) ≤ ln →
            ln < lastLine cm + 1 →
            ¬ matchInLine (getLineTokens cm ln)
              (lineStart since ln (getLineTokens cm ln)) cond))) ∧
    (expandRange cm pos style = none ↔
      ∀ t ∈ getLineTokens cm pos.line, t.«end» < pos.ch) := by
  constructor
  · cases hf : findFrom s.lineTokens (effStart s varg since) cond with
    | some v =>
      obtain ⟨i, t⟩ := v
      obtain ⟨hij, hget, hcond⟩ := findFrom_some _ _ _ _ _ hf
      have hm : matchInLine s.lineTokens (effStart s varg since) cond :=
        ⟨i, t, hij, hget, hcond⟩
      simp [findNext, hf, hm]
    | none =>
      have hnm := (findFrom_none_iff _ _ _).mp hf
      by_cases hms : maySpan varg = true
      · simp only [findNext, hf, hms, if_true, hnm, true_and,
          forall_const, not_false_eq_true]
        rw [findSpanGo_none_iff]
        constructor
        · intro h ln h1 h2
          rw [← findFrom_none_iff]
          exact h ln (List.mem_range'_1.mpr ⟨h1, by omega⟩)
        · intro h ln hmem
          obtain ⟨h1, h2⟩ := List.mem_range'_1.mp hmem
          rw [findFrom_none_iff]
          exact h ln h1 (by omega)
      · have hms' : maySpan varg = false := by
          revert hms; cases maySpan varg <;> simp
        simp [findNext, hf, hms', hnm]
  · have hsg : scanEndGe (getLineTokens cm pos.line) pos.ch =
        seekIdx (fun t => decide (pos.ch ≤ t.«end»))
          (getLineTokens cm pos.line) := by
      simp [scanEndGe, scanFrom]
    by_cases his : (scanEndGe (getLineTokens cm pos.line) pos.ch ==
        (getLineTokens cm pos.line).length) = true
    · have hiseq := beq_iff_eq.mp his
      rw [hsg] at hiseq
      have := (seekIdx_eq_length_iff _ _).mp hiseq
      simp only [expandRange, his, if_true, true_iff]
      intro t ht
      have := this t ht
      simp only [decide_eq_false_iff_not, Nat.not_le] at this
      exact this
    · have his' : (scanEndGe (getLineTokens cm pos.line) pos.ch ==
          (getLineTokens cm pos.line).length) = false := by
        revert his
        cases scanEndGe (getLineTokens cm pos.line) pos.ch ==
          (getLineTokens cm pos.line).length <;> simp
      have hisne := ne_of_beq_false his'
      simp only [expandRange, his', Bool.false_eq_true, if_false]
      constructor
      · intro h
        exact absurd h (by simp)
      · intro hall
        exfalso
        apply hisne
        rw [hsg]
        apply (seekIdx_eq_length_iff _ _).mpr
        intro t ht
        simp only [decide_eq_false_iff_not, Nat.not_le]
        exact hall t ht

/-! ### Range expansion (lemmas for C6) -/

theorem extendRightAux_acc_or_end (f : Token → Bool) (l : List Token)
    (acc : Nat) :
    extendRightAux f l acc = acc ∨
      ∃ t ∈ l, extendRightAux f l acc = t.«end» := by
  induction l generalizing acc with
  | nil => exact Or.inl rfl
  | cons t rest ih =>
    by_cases hf : f t
    · simp only [extendRightAux, hf, if_true]
      rcases ih t.«end» with h | ⟨u, hu, he⟩
      · exact Or.inr ⟨t, List.mem_cons_self t rest, h⟩
      · exact Or.inr ⟨u, List.mem_cons_of_mem t hu, he⟩
    · left
      simp [extendRightAux, hf]

theorem extendRightAux_ge (f : Token → Bool) (l : List Token) (acc : Nat)
    (hchain : l.Chain' (fun a b => a.«end» ≤ b.«end»))
    (hhead : ∀ t, l.head? = some t → acc ≤ t.«end») :
    acc ≤ extendRightAux f l acc := by
  induction l generalizing acc with
  | nil => exact Nat.le_refl acc
  | cons t rest ih =>
    by_cases hf : f t
    · simp only [extendRightAux, hf, if_true]
      have hacc : acc ≤ t.«end» := hhead t rfl
      refine Nat.le_trans hacc (ih t.«end» (List.chain'_cons'.mp hchain).2 ?_)
      intro u hu
      exact (List.chain'_cons'.mp hchain).1 u hu
    · simp only [extendRightAux, hf, Bool.false_eq_true, if_false]
      exact Nat.le_refl acc

theorem extendRightAux_end_of_head (f : Token → Bool) (l : List Token)
    (acc : Nat) (t0 : Token) (hhead : l.head? = some t0)
    (hf : f t0 = true) :
    ∃ u ∈ l, extendRightAux f l acc = u.«end» := by
  cases l with
  | nil => simp at hhead
  | cons t rest =>
    simp only [List.head?_cons, Option.some.injEq] at hhead
    subst hhead
    simp only [extendRightAux, hf, if_true]
    rcases extendRightAux_acc_or_end f rest t.«end» with h | ⟨u, hu, he⟩
    · exact ⟨t, List.mem_cons_self t rest, h⟩
    · exact ⟨u, List.mem_cons_of_mem t hu, he⟩

theorem contig_chain'_ends (c : Nat) (toks : List Token)
    (hc : contigChain c toks = true) :
    toks.Chain' (fun a b => a.«end» ≤ b.«end») := by
  induction toks generalizing c with
  | nil => simp
  | cons t rest ih =>
    obtain ⟨h0, hlt, hrest⟩ := contigChain_head c t rest hc
    rw [List.chain'_cons']
    refine ⟨?_, ih t.«end» hrest⟩
    intro u hu
    cases rest with
    | nil => simp at hu
    | cons u0 rest' =>
      simp only [List.head?_cons, Option.mem_def, Option.some.injEq] at hu
      subst hu
      obtain ⟨h0', hlt', _⟩ := contigChain_head t.«end» u0 rest' hrest
      omega

theorem extendLeft_cases (tokens : List Token) (f : Token → Bool) (i : Nat) :
    extendLeft tokens f i = 0 ∨
      ∃ j t, j ≤ i ∧ tokens.get? j = some t ∧ f t = false ∧
        extendLeft tokens f i = t.«end» := by
  induction i with
  | zero =>
    cases hg : tokens.get? 0 with
    | none =>
      have hg' : tokens[(0 : Nat)]? = none := by
        rw [← List.get?_eq_getElem?]; exact hg
      exact Or.inl (by simp [extendLeft, hg'])
    | some t =>
      have hg' : tokens[(0 : Nat)]? = some t := by
        rw [← List.get?_eq_getElem?]; exact hg
      by_cases hf : f t
      · exact Or.inl (by simp [extendLeft, hg', hf])
      · exact Or.inr ⟨0, t, Nat.le_refl 0, hg,
          by revert hf; cases f t <;> simp,
          by simp [extendLeft, hg', hf]⟩
  | succ i ih =>
    cases hg : tokens.get? (i + 1) with
    | none =>
      have hg' : tokens[i + 1]? = none := by
        rw [← List.get?_eq_getElem?]; exact hg
      exact Or.inl (by simp [extendLeft, hg'])
    | some t =>
      have hg' : tokens[i + 1]? = some t := by
        rw [← List.get?_eq_getElem?]; exact hg
      by_cases hf : f t
      · have hrec : extendLeft tokens f (i + 1) = extendLeft tokens f i := by
          simp [extendLeft, hg', hf]
        rw [hrec]
        rcases ih with h | ⟨j, u, hj, hgu, hfu, he⟩
        · exact Or.inl h
        · exact Or.inr ⟨j, u, by omega, hgu, hfu, he⟩
      · exact Or.inr ⟨i + 1, t, Nat.le_refl _, hg,
          by revert hf; cases f t <;> simp,
          by simp [extendLeft, hg', hf]⟩

theorem extendLeft_not_matching (tokens : List Token) (f : Token → Bool)
    (i : Nat) (t : Token) (hg : tokens.get? i = some t)
    (hf : f t = false) : extendLeft tokens f i = t.«end» := by
  cases i with
  | zero =>
    have hg' : tokens[(0 : Nat)]? = some t := by
      rw [← List.get?_eq_getElem?]; exact hg
    simp [extendLeft, hg', hf]
  | succ n =>
    have hg' : tokens[n + 1]? = some t := by
      rw [← List.get?_eq_getElem?]; exact hg
    simp [extendLeft, hg', hf]

/-- C6: under the tokenizer contract, when `pos.ch` lies inside a token whose
type carries `style` as a whitespace-separated tag, `expandRange` returns a
non-null range on `pos.line` with `from.ch ≤ pos.ch ≤ to.ch`, `from.ch` equal
to `0` or a token boundary, and `to.ch` a token boundary. -/
theorem expandRange_sound (cm : Buffer) (pos : Position) (style : String)
    (k : Nat) (tk : Token)
    (hc : contigChain 0 (getLineTokens cm pos.line) = true)
    (hk : (getLineTokens cm pos.line).get? k = some tk)
    (hks : tk.start ≤ pos.ch) (hke : pos.ch < tk.«end»)
    (hkm : tagMatch style tk.type = true) :
    ∃ f t, expandRange cm pos style = some (f, t) ∧
      f.line = pos.line ∧ t.line = pos.line ∧
      f.ch ≤ pos.ch ∧ pos.ch ≤ t.ch ∧
      (f.ch = 0 ∨ ∃ u ∈ getLineTokens cm pos.line, u.«end» = f.ch) ∧
      (∃ u ∈ getLineTokens cm pos.line, u.«end» = t.ch) := by
  set toks := getLineTokens cm pos.line with htoks
  have hklt : k < toks.length := (List.get?_eq_some.mp hk).1
  have hpk : (fun t => decide (pos.ch ≤ t.«end»)) tk = true := by
    simp only [decide_eq_true_eq]
    omega
  have hiSk : scanEndGe toks pos.ch ≤ k :=
    scanFrom_min _ toks 0 k tk (Nat.zero_le k) hk hpk
  have hiSlt : scanEndGe toks pos.ch < toks.length :=
    Nat.lt_of_le_of_lt hiSk hklt
  have hgiS : toks.get? (scanEndGe toks pos.ch) =
      some (toks.get ⟨scanEndGe toks pos.ch, hiSlt⟩) :=
    List.get?_eq_get hiSlt
  have hfoundiS : pos.ch ≤ (toks.get ⟨scanEndGe toks pos.ch, hiSlt⟩).«end» := by
    simpa using scanFrom_found _ toks 0 _ hgiS
  have hne : (scanEndGe toks pos.ch == toks.length) = false :=
    beq_eq_false_iff_ne.mpr (Nat.ne_of_lt hiSlt)
  have heval : expandRange cm pos style =
      some (⟨pos.line,
              extendLeft toks (fun t => tagMatch style t.type)
                (scanEndGe toks pos.ch)⟩,
            ⟨pos.line,
              extendRight toks (scanEndGe toks pos.ch) pos.ch
                (fun t => tagMatch style t.type)⟩) := by
    simp only [expandRange, ← htoks, hne, Bool.false_eq_true, if_false]
  have hdropcons : toks.drop (scanEndGe toks pos.ch) =
      toks.get ⟨scanEndGe toks pos.ch, hiSlt⟩ ::
        toks.drop (scanEndGe toks pos.ch + 1) :=
    List.drop_eq_get_cons hiSlt
  refine ⟨_, _, heval, rfl, rfl, ?_, ?_, ?_, ?_⟩
  · -- from.ch ≤ pos.ch
    rcases extendLeft_cases toks (fun t => tagMatch style t.type)
        (scanEndGe toks pos.ch) with h | ⟨j, u, hji, hgu, hfu, he⟩
    · simp only [h]
      exact Nat.zero_le _
    · simp only [he]
      rcases Nat.lt_or_ge j (scanEndGe toks pos.ch) with hjlt | hjge
      · have hbefore := scanFrom_before _ toks 0 j u (Nat.zero_le j) hjlt hgu
        simp only [decide_eq_false_iff_not, Nat.not_le] at hbefore
        omega
      · have hjeq : j = scanEndGe toks pos.ch := by omega
        subst hjeq
        rw [hgu] at hgiS
        have := Option.some.inj hgiS
        -- u is the token at iSince and does not match the style
        rcases hcase : tagMatch style u.type with hfalse | htrue
        · -- non-matching token at iSince: its end equals pos.ch
          rcases Nat.lt_or_ge (scanEndGe toks pos.ch) k with hik | hik
          · have hmono := contig_mono 0 toks (scanEndGe toks pos.ch) k u tk hc
              hik hgu hk
            have hfound' : pos.ch ≤ u.«end» := by
              rw [← this] at hfoundiS; omega
            omega
          · have hkeq : k = scanEndGe toks pos.ch := by omega
            subst hkeq
            rw [hgu] at hk
            have := Option.some.inj hk
            rw [← this] at hkm
            rw [hkm] at hcase
            exact absurd hcase.symm (by simp)
        · rw [hcase] at hfu
          exact absurd hfu (by simp)
  · -- pos.ch ≤ to.ch
    show pos.ch ≤ extendRight toks (scanEndGe toks pos.ch) pos.ch _
    rw [extendRight]
    apply extendRightAux_ge
    · exact (contig_chain'_ends 0 toks hc).suffix
        (List.drop_suffix (scanEndGe toks pos.ch) toks)
    · intro u hu
      rw [hdropcons] at hu
      simp only [List.head?_cons, Option.some.injEq] at hu
      subst hu
      exact hfoundiS
  · -- from.ch is 0 or a token end
    rcases extendLeft_cases toks (fun t => tagMatch style t.type)
        (scanEndGe toks pos.ch) with h | ⟨j, u, hji, hgu, hfu, he⟩
    · exact Or.inl h
    · exact Or.inr ⟨u, List.get?_mem hgu, he.symm⟩
  · -- to.ch is a token end
    rcases hcase : tagMatch style
        (toks.get ⟨scanEndGe toks pos.ch, hiSlt⟩).type with hfalse | htrue
    · -- iSince token does not match: to.ch stays pos.ch = its end
      have hstop : extendRight toks (scanEndGe toks pos.ch) pos.ch
          (fun t => tagMatch style t.type) = pos.ch := by
        rw [extendRight, hdropcons, extendRightAux,
          if_neg (by rw [hcase]; simp)]
      rw [hstop]
      -- its end equals pos.ch by the tie argument
      rcases Nat.lt_or_ge (scanEndGe toks pos.ch) k with hik | hik
      · have hmono := contig_mono 0 toks (scanEndGe toks pos.ch) k _ tk hc
          hik hgiS hk
        refine ⟨_, List.get?_mem hgiS, ?_⟩
        show (toks.get ⟨scanEndGe toks pos.ch, hiSlt⟩).«end» = pos.ch
        omega
      · have hkeq : k = scanEndGe toks pos.ch := by omega
        subst hkeq
        rw [hgiS] at hk
        have := Option.some.inj hk
        rw [← this] at hkm
        rw [hkm] at hcase
        exact absurd hcase.symm (by simp)
    · obtain ⟨u, hu, he⟩ := extendRightAux_end_of_head
        (fun t => tagMatch style t.type) (toks.drop (scanEndGe toks pos.ch))
        pos.ch _ (by rw [hdropcons]; rfl) hcase
      exact ⟨u, List.mem_of_mem_drop hu, by rw [extendRight]; exact he.symm⟩

/-- C6 witness: the line `[{0,4,"em"},{4,10,"em strong"},{10,14,"plain"}]`
with `pos.ch = 6` inside the matching token `{4,10,"em strong"}`. -/
theorem expandRange_sound_witness :
    ∃ f t,
      expandRange ⟨[[⟨0,4,"em"⟩, ⟨4,10,"em strong"⟩, ⟨10,14,"plain"⟩]]⟩
        ⟨0, 6⟩ "em" = some (f, t) ∧
      f.line = (0 : Nat) ∧ t.line = (0 : Nat) ∧
      f.ch ≤ 6 ∧ 6 ≤ t.ch ∧
      (f.ch = 0 ∨ ∃ u ∈ getLineTokens
        ⟨[[⟨0,4,"em"⟩, ⟨4,10,"em strong"⟩, ⟨10,14,"plain"⟩]]⟩ 0,
        u.«end» = f.ch) ∧
      (∃ u ∈ getLineTokens
        ⟨[[⟨0,4,"em"⟩, ⟨4,10,"em strong"⟩, ⟨10,14,"plain"⟩]]⟩ 0,
        u.«end» = t.ch) :=
  expandRange_sound ⟨[[⟨0,4,"em"⟩, ⟨4,10,"em strong"⟩, ⟨10,14,"plain"⟩]]⟩
    ⟨0, 6⟩ "em" 1 ⟨4,10,"em strong"⟩ (by decide) (by decide) (by decide)
    (by decide) (by decide)

end HyperMD
